import Mathlib

/-!
Verification of tui-pattern-highlighter.

Shallow embedding of the two source files of the repository:
* src/lib.rs : highlight_line, highlight_text, trait IntoRegexRef
* src/highlighter.rs : an older draft variant of highlight_line

Strings are modelled as lists of characters; byte indices of the Rust code
become character indices (the regex engine only ever produces indices lying
on character boundaries, so the two views agree on all reachable inputs).
A compiled regular expression is modelled by its observable behaviour on a
haystack: the list of (start, end) index pairs that find_iter yields, in
order.  The guarantees of the regex engine about that list (matches are in
bounds, ordered, non-overlapping) are captured by the predicate validFrom.
-/

set_option autoImplicit false

namespace TPH

/-- Model of ratatui Style: an abstract comparable descriptor.  Only the
fields the library touches matter, so a single tag suffices; the value
Style.default models Style::default(), the base (unstyled) style. -/
structure Style where
  code : Nat
deriving DecidableEq

/-- Style::default(), the base style attached by Span::from. -/
def Style.default : Style := ⟨0⟩

/-- Model of ratatui Span: a slice of text plus its style. -/
structure Span where
  content : List Char
  style : Style
deriving DecidableEq

/-- Span::from(s): a span with the default (base) style. -/
def Span.fromContent (c : List Char) : Span := ⟨c, Style.default⟩

/-- Span::style(s): replace the style of the span. -/
def Span.withStyle (sp : Span) (st : Style) : Span := ⟨sp.content, st⟩

/-- Model of ratatui Line, restricted to the field the library touches:
its list of spans (the style and alignment fields of a ratatui Line are
never written by this library). -/
structure Line where
  spans : List Span
deriving DecidableEq

/-- Line::default(). -/
def Line.default : Line := ⟨[]⟩

/-- Line::push_span. -/
def Line.push_span (l : Line) (sp : Span) : Line := ⟨l.spans ++ [sp]⟩

/-- Model of ratatui Text: its list of lines. -/
structure Text where
  lines : List Line
deriving DecidableEq

/-- Text::default(). -/
def Text.default : Text := ⟨[]⟩

/-- Text::push_line. -/
def Text.push_line (t : Text) (l : Line) : Text := ⟨t.lines ++ [l]⟩

/-- Rust slice line[a..b] (on the reachable inputs a ≤ b ≤ line.len()). -/
def sliceL (l : List Char) (a b : Nat) : List Char := (l.take b).drop a

/-- The guarantees the regex engine gives about the match list returned by
find_iter, relative to a cursor lo and the haystack length len: every
match (s, e) satisfies lo ≤ s ≤ e ≤ len and the next match starts at or
after e (matches are in order and do not overlap). -/
def validFrom (lo len : Nat) : List (Nat × Nat) → Bool
  | [] => true
  | (s, e) :: rest =>
      decide (lo ≤ s) && decide (s ≤ e) && decide (e ≤ len) && validFrom e len rest

/-- The for-loop of highlight_line in src/lib.rs, with the match list ms
standing for the iterator regex.find_iter(line): push the unmatched gap
(base style) when it is nonempty, push the match with the highlight style,
advance the cursor to the match end.  Returns the built line and the final
value of last_index. -/
def hlLoop (line : List Char) (hs : Style) :
    List (Nat × Nat) → Nat → Line → Line × Nat
  | [], lo, acc => (acc, lo)
  | (s, e) :: rest, lo, acc =>
      let acc1 := if lo < s then acc.push_span (Span.fromContent (sliceL line lo s)) else acc
      let acc2 := acc1.push_span ((Span.fromContent (sliceL line s e)).withStyle hs)
      hlLoop line hs rest e acc2

/-- highlight_line of src/lib.rs, after pattern normalization, as a
function of the match list ms = find_iter output: run the loop from
last_index = 0, then push the remaining tail of the line (base style) when
it is nonempty. -/
def highlight_line_ms (line : List Char) (ms : List (Nat × Nat)) (hs : Style) : Line :=
  let r := hlLoop line hs ms 0 Line.default
  if line.length > r.2 then r.1.push_span (Span.fromContent (line.drop r.2)) else r.1

/-- A compiled regular expression, modelled by its observable behaviour:
the list of (start, end) matches find_iter yields on a haystack. -/
structure Regex where
  find : List Char → List (Nat × Nat)

/-- The regex-engine guarantee, for every haystack. -/
def Regex.WF (r : Regex) : Prop :=
  ∀ l : List Char, validFrom 0 l.length (r.find l) = true

/-- highlight_line of src/lib.rs applied to an already-normalized compiled
pattern. -/
def highlight_line (line : List Char) (re : Regex) (hs : Style) : Line :=
  highlight_line_ms line (re.find line) hs

/-- The pattern argument of the public entry points (the closed set of
IntoRegexRef instances): either an already compiled Regex (the Regex and
ampersand-Regex instances, whose clone is the same matcher), or a raw
pattern string, represented by the outcome of compiling it with
Regex::new — some r when the string is a valid pattern compiling to r,
none when it is invalid. -/
inductive PatternInput where
  | regex : Regex → PatternInput
  | rawStr : Option Regex → PatternInput

/-- IntoRegexRef::into_regex_ref of src/lib.rs.  For a raw string the
source runs Regex::new(s).unwrap(): on an invalid pattern the unwrap is a
process fault, modelled by none propagating to the caller. -/
def into_regex_ref : PatternInput → Option Regex
  | .regex r => some r
  | .rawStr c => c

/-- The public highlight_line entry point of src/lib.rs: normalize the
pattern, then run the segmentation loop.  none models the process fault
raised by the unwrap inside into_regex_ref on an invalid raw pattern. -/
def highlight_line_p (line : List Char) (p : PatternInput) (hs : Style) : Option Line :=
  (into_regex_ref p).map (fun re => highlight_line line re hs)

/-- The positions text_string.match_indices of a newline character reports:
the indices of the newline characters of the text, in increasing order. -/
def nlIdx : List Char → List Nat
  | [] => []
  | c :: t => (if c = '\n' then [0] else []) ++ (nlIdx t).map (· + 1)

/-- The for-loop of highlight_text in src/lib.rs over the newline
positions: push the highlighted sub-line between last_index and the
newline, move last_index past the newline. -/
def textLoop (re : Regex) (hs : Style) (t : List Char) :
    List Nat → Nat → Text → Text × Nat
  | [], last, acc => (acc, last)
  | i :: rest, last, acc =>
      textLoop re hs t rest (i + 1)
        (acc.push_line (highlight_line (sliceL t last i) re hs))

/-- highlight_text of src/lib.rs applied to a compiled pattern (the clone
performed per line clones the same matcher): loop over the newline
positions, then push the tail after the last newline when it is
nonempty. -/
def highlight_text (t : List Char) (re : Regex) (hs : Style) : Text :=
  let r := textLoop re hs t (nlIdx t) 0 Text.default
  if t.length > r.2 then r.1.push_line (highlight_line (t.drop r.2) re hs) else r.1

/-- The for-loop of highlight_text with a generic pattern argument: each
iteration calls the public highlight_line with pattern.clone(), so each
iteration re-normalizes the pattern and a raw invalid pattern faults at
the first processed sub-line. -/
def textLoopP (p : PatternInput) (hs : Style) (t : List Char) :
    List Nat → Nat → Text → Option (Text × Nat)
  | [], last, acc => some (acc, last)
  | i :: rest, last, acc =>
      match highlight_line_p (sliceL t last i) p hs with
      | none => none
      | some ln => textLoopP p hs t rest (i + 1) (acc.push_line ln)

/-- The public highlight_text entry point of src/lib.rs with a generic
pattern argument.  none models the process fault on an invalid raw
pattern; note the loop body is only reached when there is a sub-line to
process, so an empty input text never touches the pattern. -/
def highlight_text_p (t : List Char) (p : PatternInput) (hs : Style) : Option Text :=
  match textLoopP p hs t (nlIdx t) 0 Text.default with
  | none => none
  | some r =>
      if t.length > r.2 then
        match highlight_line_p (t.drop r.2) p hs with
        | none => none
        | some ln => some (r.1.push_line ln)
      else some r.1

/-- Rust range indexing line[a..b], which is a process fault (modelled by
none) unless a ≤ b ≤ line.len(). -/
def rustSlice (l : List Char) (a b : Nat) : Option (List Char) :=
  if a ≤ b ∧ b ≤ l.length then some ((l.take b).drop a) else none

/-- The for-loop of highlight_line in src/highlighter.rs.  Differences
from the src/lib.rs loop, kept verbatim: the gap slice
line[last_index..m.start()] is pushed unconditionally (even when empty)
and styled with the highlight style, and the cursor advances to
m.end() + 1.  Because of that extra + 1 the gap slice can have its start
beyond its end (adjacent matches), which in Rust is an index fault,
modelled by none. -/
def hrLoop (line : List Char) (hs : Style) :
    List (Nat × Nat) → Nat → Line → Option (Line × Nat)
  | [], lo, acc => some (acc, lo)
  | (s, e) :: rest, lo, acc =>
      match rustSlice line lo s with
      | none => none
      | some gap =>
          let acc1 := acc.push_span ((Span.fromContent gap).withStyle hs)
          let acc2 := acc1.push_span ((Span.fromContent (sliceL line s e)).withStyle hs)
          hrLoop line hs rest (e + 1) acc2

/-- highlight_line of src/highlighter.rs, as a function of the match list
ms = find_iter output: run the variant loop from last_index = 0, then push
line[last_index..] — styled with the highlight style — when last_index is
properly below the line length. -/
def highlighter_highlight_line (line : List Char) (ms : List (Nat × Nat)) (hs : Style) :
    Option Line :=
  match hrLoop line hs ms 0 Line.default with
  | none => none
  | some r =>
      if line.length > r.2 then
        some (r.1.push_span ((Span.fromContent (line.drop r.2)).withStyle hs))
      else some r.1

/-- Prepend a character to the first component of a split, creating the
component when there is none. -/
def consFirst (c : Char) : List (List Char) → List (List Char)
  | [] => [[c]]
  | s :: ss => (c :: s) :: ss

/-- Splitting a text at every newline character, keeping the empty pieces
produced by consecutive or trailing newlines: the spec notion of the
sub-lines of a text (spec sections 4.2 and 8), with
(splitNl t).length = t.count newline + 1. -/
def splitNl : List Char → List (List Char)
  | [] => [[]]
  | c :: t => if c = '\n' then [] :: splitNl t else consFirst c (splitNl t)

/-- Remove a trailing empty piece from a split, when present. -/
def dropTrailingEmpty (ls : List (List Char)) : List (List Char) :=
  if ls.getLast? = some [] then ls.dropLast else ls

/-- The sub-line slices the highlight_text loop actually processes,
obtained from the source loop by replacing the call to highlight_line with
the identity: the loop over the newline positions, pushing each slice. -/
def segsLoop (t : List Char) : List Nat → Nat → List (List Char) → List (List Char) × Nat
  | [], last, acc => (acc, last)
  | i :: rest, last, acc => segsLoop t rest (i + 1) (acc ++ [sliceL t last i])

/-- The full list of sub-line slices highlight_text processes, trailing
slice included. -/
def srcSegs (t : List Char) : List (List Char) :=
  let r := segsLoop t (nlIdx t) 0 []
  if t.length > r.2 then r.1 ++ [t.drop r.2] else r.1

/-- The fragments the highlight_line loop emits for a match list, starting
from cursor lo, written as a direct recursion (proof companion of
hlLoop). -/
def hlSpansCore (line : List Char) (hs : Style) : List (Nat × Nat) → Nat → List Span
  | [], _ => []
  | (s, e) :: rest, lo =>
      (if lo < s then [Span.fromContent (sliceL line lo s)] else [])
        ++ (Span.fromContent (sliceL line s e)).withStyle hs :: hlSpansCore line hs rest e

/-- The value of last_index after the loop has consumed the match list. -/
def finalLo (lo : Nat) : List (Nat × Nat) → Nat
  | [] => lo
  | (_, e) :: rest => finalLo e rest

/-- Concatenation of the texts of the fragments of a line. -/
def Line.concatText (l : Line) : List Char := (l.spans.map Span.content).flatten

theorem hlLoop_spec (line : List Char) (hs : Style) (ms : List (Nat × Nat)) :
    ∀ (lo : Nat) (acc : Line),
      hlLoop line hs ms lo acc =
        (Line.mk (acc.spans ++ hlSpansCore line hs ms lo), finalLo lo ms) := by
  induction ms with
  | nil => intro lo acc; simp [hlLoop, hlSpansCore, finalLo]
  | cons m rest ih =>
      obtain ⟨s, e⟩ := m
      intro lo acc
      by_cases h : lo < s <;>
        simp [hlLoop, hlSpansCore, finalLo, h, ih, Line.push_span, List.append_assoc]

theorem highlight_line_ms_spans (line : List Char) (ms : List (Nat × Nat)) (hs : Style) :
    (highlight_line_ms line ms hs).spans =
      hlSpansCore line hs ms 0 ++
        (if line.length > finalLo 0 ms then
          [Span.fromContent (line.drop (finalLo 0 ms))] else []) := by
  unfold highlight_line_ms
  rw [hlLoop_spec]
  by_cases h : line.length > finalLo 0 ms <;>
    simp [h, Line.push_span, Line.default]

theorem sliceL_same (l : List Char) (a : Nat) : sliceL l a a = [] := by
  apply List.drop_eq_nil_of_le
  rw [List.length_take]
  exact min_le_left _ _

theorem sliceL_append (l : List Char) (a b c : Nat) (hab : a ≤ b) (hbc : b ≤ c)
    (hb : b ≤ l.length) : sliceL l a b ++ sliceL l b c = sliceL l a c := by
  unfold sliceL
  have h1 : l.take c = l.take b ++ (l.take c).drop b := by
    conv_lhs => rw [← List.take_append_drop b (l.take c)]
    rw [List.take_take, min_eq_left hbc]
  have h2 : a ≤ (l.take b).length := by
    rw [List.length_take]
    exact le_min hab (le_trans hab hb)
  conv_rhs => rw [h1]
  rw [List.drop_append_of_le_length h2]

theorem validFrom_cons {lo len s e : Nat} {rest : List (Nat × Nat)}
    (h : validFrom lo len ((s, e) :: rest) = true) :
    lo ≤ s ∧ s ≤ e ∧ e ≤ len ∧ validFrom e len rest = true := by
  simp only [validFrom, Bool.and_eq_true, decide_eq_true_eq] at h
  exact ⟨h.1.1.1, h.1.1.2, h.1.2, h.2⟩

theorem hlSpansCore_concat (line : List Char) (hs : Style) :
    ∀ (ms : List (Nat × Nat)) (lo : Nat),
      validFrom lo line.length ms = true → lo ≤ line.length →
      ((hlSpansCore line hs ms lo).map Span.content).flatten
          = sliceL line lo (finalLo lo ms)
        ∧ lo ≤ finalLo lo ms ∧ finalLo lo ms ≤ line.length := by
  intro ms
  induction ms with
  | nil => intro lo _ hlo; simp [hlSpansCore, finalLo, sliceL_same]; exact hlo
  | cons m rest ih =>
      obtain ⟨s, e⟩ := m
      intro lo hv hlo
      obtain ⟨h1, h2, h3, hv'⟩ := validFrom_cons hv
      obtain ⟨ihc, ihl, ihu⟩ := ih e hv' h3
      have hse : s ≤ line.length := le_trans h2 h3
      have hmid : sliceL line s e ++ sliceL line e (finalLo e rest)
          = sliceL line s (finalLo e rest) := sliceL_append line s e _ h2 ihl h3
      refine ⟨?_, le_trans h1 (le_trans h2 ihl), ihu⟩
      by_cases hgap : lo < s
      · simp only [hlSpansCore, finalLo, hgap, if_pos, List.map_append, List.map_cons,
          List.map_nil, List.flatten_append, List.flatten_cons, List.flatten_nil,
          List.append_nil, Span.fromContent, Span.withStyle, ihc]
        rw [hmid]
        exact sliceL_append line lo s _ h1 (le_trans h2 ihl) hse
      · have hls : lo = s := le_antisymm h1 (le_of_not_lt hgap)
        simp only [hlSpansCore, finalLo, hgap, if_neg, not_false_iff, List.nil_append,
          List.map_cons, List.flatten_cons, Span.fromContent, Span.withStyle, ihc]
        rw [hls, hmid]

/-- Claim C1: for every line, every match list the regex engine can
produce, and every style, the texts of the fragments of
highlight_line, concatenated in order, reconstruct the line exactly. -/
theorem claim_C1 (line : List Char) (ms : List (Nat × Nat)) (hs : Style)
    (h : validFrom 0 line.length ms = true) :
    Line.concatText (highlight_line_ms line ms hs) = line := by
  obtain ⟨hc, -, hu⟩ := hlSpansCore_concat line hs ms 0 h (Nat.zero_le _)
  unfold Line.concatText
  rw [highlight_line_ms_spans]
  by_cases hlen : line.length > finalLo 0 ms
  · simp only [hlen, if_pos, List.map_append, List.flatten_append, hc, List.map_cons,
      List.map_nil, List.flatten_cons, List.flatten_nil, List.append_nil, Span.fromContent]
    show (line.take (finalLo 0 ms)).drop 0 ++ line.drop (finalLo 0 ms) = line
    rw [List.drop_zero, List.take_append_drop]
  · simp only [hlen, if_neg, not_false_iff, List.append_nil, hc]
    show (line.take (finalLo 0 ms)).drop 0 = line
    rw [List.drop_zero, List.take_of_length_le (le_of_not_lt hlen)]

theorem claim_C1_witness :
    validFrom 0 (['H', 'i', ' ', '@', 'b'].length) [(3, 5)] = true ∧
      Line.concatText (highlight_line_ms ['H', 'i', ' ', '@', 'b'] [(3, 5)] ⟨1⟩)
        = ['H', 'i', ' ', '@', 'b'] :=
  ⟨by decide, claim_C1 ['H', 'i', ' ', '@', 'b'] [(3, 5)] ⟨1⟩ (by decide)⟩

theorem sliceL_ne_nil (l : List Char) (a b : Nat) (hab : a < b) (hb : b ≤ l.length) :
    sliceL l a b ≠ [] := by
  intro hnil
  have hlen : (sliceL l a b).length = 0 := by rw [hnil]; rfl
  rw [sliceL, List.length_drop, List.length_take] at hlen
  omega

theorem hlSpansCore_mem (line : List Char) (hs : Style) :
    ∀ (ms : List (Nat × Nat)) (lo : Nat), validFrom lo line.length ms = true →
      ∀ sp ∈ hlSpansCore line hs ms lo,
        (sp.style = hs ∧ ∃ p ∈ ms, sp.content = sliceL line p.1 p.2) ∨
        (sp.style = Style.default ∧ sp.content ≠ []) := by
  intro ms
  induction ms with
  | nil => intro lo _ sp hsp; simp [hlSpansCore] at hsp
  | cons m rest ih =>
      obtain ⟨s, e⟩ := m
      intro lo hv sp hsp
      obtain ⟨h1, h2, h3, hv'⟩ := validFrom_cons hv
      simp only [hlSpansCore, List.mem_append, List.mem_cons] at hsp
      rcases hsp with hgap | hsp
      · right
        have hlt : lo < s := by
          by_contra hne
          simp [hne] at hgap
        simp only [hlt, if_pos, List.mem_singleton] at hgap
        subst hgap
        exact ⟨rfl, sliceL_ne_nil line lo s hlt (le_trans h2 h3)⟩
      · rcases hsp with hm | hrest
        · subst hm
          exact Or.inl ⟨rfl, ⟨(s, e), List.mem_cons_self _ _, rfl⟩⟩
        · rcases ih e hv' sp hrest with ⟨hsty, p, hp, hco⟩ | hbase
          · exact Or.inl ⟨hsty, p, List.mem_cons_of_mem _ hp, hco⟩
          · exact Or.inr hbase

theorem hlSpansCore_mem_match (line : List Char) (hs : Style) :
    ∀ (ms : List (Nat × Nat)) (lo : Nat) (p : Nat × Nat), p ∈ ms →
      (Span.fromContent (sliceL line p.1 p.2)).withStyle hs ∈ hlSpansCore line hs ms lo := by
  intro ms
  induction ms with
  | nil => intro lo p hp; simp at hp
  | cons m rest ih =>
      obtain ⟨s, e⟩ := m
      intro lo p hp
      rcases List.mem_cons.mp hp with hp | hp
      · subst hp
        simp only [hlSpansCore, List.mem_append, List.mem_cons]
        right; left; trivial
      · simp only [hlSpansCore, List.mem_append, List.mem_cons]
        right; right; exact ih e p hp

/-- Claim C2: the styling of highlight_line is exactly the match/gap rule.
First, the span list is precisely the source emission sequence: for each
match in order, the nonempty unmatched gap before it base-styled, then the
match text carrying the highlight style, and finally the nonempty tail
base-styled.  Second (match fragments carry S): every match of the
pattern contributes its text as a fragment carrying the highlight style to
the output.  Third (all other fragments carry the base style): every
fragment of the output is either such a highlighted match fragment or a
nonempty base-styled gap fragment. -/
theorem claim_C2 (line : List Char) (ms : List (Nat × Nat)) (hs : Style)
    (h : validFrom 0 line.length ms = true) :
    (highlight_line_ms line ms hs).spans
        = hlSpansCore line hs ms 0
          ++ (if line.length > finalLo 0 ms then
                [Span.fromContent (line.drop (finalLo 0 ms))] else [])
      ∧ (∀ p ∈ ms,
          (Span.fromContent (sliceL line p.1 p.2)).withStyle hs
            ∈ (highlight_line_ms line ms hs).spans)
      ∧ ∀ sp ∈ (highlight_line_ms line ms hs).spans,
          (sp.style = hs ∧ ∃ p ∈ ms, sp.content = sliceL line p.1 p.2) ∨
          (sp.style = Style.default ∧ sp.content ≠ []) := by
  refine ⟨highlight_line_ms_spans line ms hs, ?_, ?_⟩
  · intro p hp
    rw [highlight_line_ms_spans]
    exact List.mem_append_left _ (hlSpansCore_mem_match line hs ms 0 p hp)
  · intro sp hsp
    rw [highlight_line_ms_spans] at hsp
    rcases List.mem_append.mp hsp with hcore | htail
    · exact hlSpansCore_mem line hs ms 0 h sp hcore
    · by_cases hlen : line.length > finalLo 0 ms
      · simp only [hlen, if_pos, List.mem_singleton] at htail
        subst htail
        refine Or.inr ⟨rfl, ?_⟩
        show ¬ line.drop (finalLo 0 ms) = []
        rw [List.drop_eq_nil_iff]
        omega
      · simp [hlen] at htail

theorem claim_C2_witness :
    (Span.fromContent (sliceL ['a', 'b'] 0 1)).withStyle ⟨1⟩
      ∈ (highlight_line_ms ['a', 'b'] [(0, 1)] ⟨1⟩).spans :=
  (claim_C2 ['a', 'b'] [(0, 1)] ⟨1⟩ (by decide)).2.1 (0, 1) (by decide)

/-- Claim C6: with zero matches, highlight_line returns the whole line as
one base-styled fragment, and zero fragments when the line is empty. -/
theorem claim_C6 (line : List Char) (hs : Style) :
    highlight_line_ms line [] hs =
      Line.mk (if line.length = 0 then [] else [Span.fromContent line]) := by
  unfold highlight_line_ms
  rw [hlLoop_spec]
  rcases line with _ | ⟨c, t⟩ <;>
    simp [hlSpansCore, finalLo, Line.push_span, Line.default, Span.fromContent]

theorem finalLo_append (xs ys : List (Nat × Nat)) :
    ∀ lo, finalLo lo (xs ++ ys) = finalLo (finalLo lo xs) ys := by
  induction xs with
  | nil => intro lo; rfl
  | cons m rest ih => obtain ⟨s, e⟩ := m; intro lo; simp [finalLo, ih]

theorem hlSpansCore_append (line : List Char) (hs : Style) (xs ys : List (Nat × Nat)) :
    ∀ lo, hlSpansCore line hs (xs ++ ys) lo
      = hlSpansCore line hs xs lo ++ hlSpansCore line hs ys (finalLo lo xs) := by
  induction xs with
  | nil => intro lo; rfl
  | cons m rest ih =>
      obtain ⟨s, e⟩ := m
      intro lo
      simp [hlSpansCore, finalLo, ih, List.append_assoc]

/-- Claim C7: when two consecutive matches are adjacent (the second starts
exactly where the first ends), their two highlighted fragments are
adjacent in the output as well — no empty base-styled fragment is emitted
between them. -/
theorem claim_C7 (line : List Char) (pre rest : List (Nat × Nat)) (s1 e1 e2 : Nat)
    (hs : Style) :
    ∃ front back,
      (highlight_line_ms line (pre ++ (s1, e1) :: (e1, e2) :: rest) hs).spans =
        front ++ (Span.fromContent (sliceL line s1 e1)).withStyle hs
              :: (Span.fromContent (sliceL line e1 e2)).withStyle hs :: back := by
  rw [highlight_line_ms_spans, hlSpansCore_append]
  refine ⟨hlSpansCore line hs pre 0 ++
      (if finalLo 0 pre < s1 then [Span.fromContent (sliceL line (finalLo 0 pre) s1)] else []),
    hlSpansCore line hs rest e2 ++
      (if line.length > finalLo 0 (pre ++ (s1, e1) :: (e1, e2) :: rest) then
        [Span.fromContent (line.drop (finalLo 0 (pre ++ (s1, e1) :: (e1, e2) :: rest)))]
      else []), ?_⟩
  simp [hlSpansCore, finalLo, List.append_assoc]

theorem sliceL_cons_succ (c : Char) (t : List Char) (a b : Nat) :
    sliceL (c :: t) (a + 1) (b + 1) = sliceL t a b := by
  simp [sliceL, List.take_succ_cons, List.drop_succ_cons]

theorem sliceL_zero_succ (c : Char) (t : List Char) (b : Nat) :
    sliceL (c :: t) 0 (b + 1) = c :: sliceL t 0 b := by
  simp [sliceL, List.take_succ_cons]

theorem segsLoop_acc (t : List Char) (idxs : List Nat) :
    ∀ (last : Nat) (acc : List (List Char)),
      segsLoop t idxs last acc
        = (acc ++ (segsLoop t idxs last []).1, (segsLoop t idxs last []).2) := by
  induction idxs with
  | nil => intro last acc; simp [segsLoop]
  | cons i rest ih =>
      intro last acc
      rw [segsLoop, segsLoop, ih (i + 1) (acc ++ [sliceL t last i]),
        ih (i + 1) ([] ++ [sliceL t last i])]
      simp [List.append_assoc]

theorem segsLoop_shift1 (c : Char) (t : List Char) (idxs : List Nat) :
    ∀ (last : Nat) (acc : List (List Char)),
      segsLoop (c :: t) (idxs.map (· + 1)) (last + 1) acc
        = ((segsLoop t idxs last acc).1, (segsLoop t idxs last acc).2 + 1) := by
  induction idxs with
  | nil => intro last acc; simp [segsLoop]
  | cons i rest ih =>
      intro last acc
      simp only [List.map_cons, segsLoop]
      rw [sliceL_cons_succ, ih]

theorem srcSegs_newline_cons (t : List Char) : srcSegs ('\n' :: t) = [] :: srcSegs t := by
  unfold srcSegs
  have hidx : nlIdx ('\n' :: t) = 0 :: (nlIdx t).map (· + 1) := by simp [nlIdx]
  rw [hidx, segsLoop]
  have h0 : sliceL ('\n' :: t) 0 0 = [] := rfl
  rw [h0, segsLoop_shift1 '\n' t (nlIdx t) 0 ([] ++ [[]]),
    segsLoop_acc t (nlIdx t) 0 ([] ++ [[]])]
  by_cases hc : t.length > (segsLoop t (nlIdx t) 0 []).2 <;>
    simp [hc, Nat.succ_lt_succ_iff, List.drop_succ_cons]

theorem srcSegs_cons (c : Char) (t : List Char) (hc : ¬ c = '\n') :
    srcSegs (c :: t) = consFirst c (srcSegs t) := by
  unfold srcSegs
  have hidx : nlIdx (c :: t) = (nlIdx t).map (· + 1) := by simp [nlIdx, hc]
  rw [hidx]
  rcases hnl : nlIdx t with _ | ⟨i, is⟩
  · simp only [List.map_nil, segsLoop]
    rcases t with _ | ⟨d, u⟩ <;> simp [consFirst, List.drop_zero]
  · simp only [List.map_cons, segsLoop]
    rw [sliceL_zero_succ,
      segsLoop_shift1 c t is (i + 1) ([] ++ [c :: sliceL t 0 i]),
      segsLoop_acc t is (i + 1) ([] ++ [c :: sliceL t 0 i]),
      segsLoop_acc t is (i + 1) ([] ++ [sliceL t 0 i])]
    by_cases hcnd : t.length > (segsLoop t is (i + 1) []).2 <;>
      simp [hcnd, Nat.succ_lt_succ_iff, List.drop_succ_cons, consFirst]

theorem consFirst_ne_nil (c : Char) (ls : List (List Char)) : consFirst c ls ≠ [] := by
  rcases ls with _ | ⟨s, ss⟩ <;> simp [consFirst]

theorem splitNl_ne_nil (t : List Char) : splitNl t ≠ [] := by
  induction t with
  | nil => simp [splitNl]
  | cons c u ih =>
      by_cases hc : c = '\n' <;> simp [splitNl, hc, consFirst_ne_nil]

theorem dropTrailingEmpty_cons (h : List Char) (ls : List (List Char)) (hne : ls ≠ []) :
    dropTrailingEmpty (h :: ls) = h :: dropTrailingEmpty ls := by
  rcases ls with _ | ⟨a, l⟩
  · exact absurd rfl hne
  · unfold dropTrailingEmpty
    rw [List.getLast?_cons_cons]
    by_cases hl : (a :: l).getLast? = some [] <;> simp [hl]

theorem dropTrailingEmpty_consFirst (c : Char) (ls : List (List Char)) (hne : ls ≠ []) :
    dropTrailingEmpty (consFirst c ls) = consFirst c (dropTrailingEmpty ls) := by
  rcases ls with _ | ⟨s, ss⟩
  · exact absurd rfl hne
  · rcases ss with _ | ⟨a, l⟩
    · rcases hs : s with _ | ⟨d, u⟩ <;>
        simp [consFirst, dropTrailingEmpty, List.getLast?_singleton]
    · rw [show consFirst c (s :: a :: l) = (c :: s) :: a :: l from rfl,
        dropTrailingEmpty_cons (c :: s) (a :: l) (by simp),
        dropTrailingEmpty_cons s (a :: l) (by simp)]
      rfl

theorem srcSegs_eq_split (t : List Char) : srcSegs t = dropTrailingEmpty (splitNl t) := by
  induction t with
  | nil => rfl
  | cons c u ih =>
      by_cases hc : c = '\n'
      · subst hc
        rw [srcSegs_newline_cons, ih, show splitNl ('\n' :: u) = [] :: splitNl u from rfl,
          dropTrailingEmpty_cons [] (splitNl u) (splitNl_ne_nil u)]
      · rw [srcSegs_cons c u hc, ih, show splitNl (c :: u) = consFirst c (splitNl u) by
            simp [splitNl, hc],
          dropTrailingEmpty_consFirst c (splitNl u) (splitNl_ne_nil u)]

theorem Text.eq_of_lines (a b : Text) (h : a.lines = b.lines) : a = b := by
  cases a; cases b; cases h; rfl

theorem textLoop_segsLoop (re : Regex) (hs : Style) (t : List Char) (idxs : List Nat) :
    ∀ (last : Nat) (accT : Text) (accS : List (List Char)),
      accT.lines = accS.map (fun l => highlight_line l re hs) →
      (textLoop re hs t idxs last accT).1.lines
          = (segsLoop t idxs last accS).1.map (fun l => highlight_line l re hs)
        ∧ (textLoop re hs t idxs last accT).2 = (segsLoop t idxs last accS).2 := by
  induction idxs with
  | nil => intro last accT accS h; exact ⟨h, rfl⟩
  | cons i rest ih =>
      intro last accT accS h
      rw [textLoop, segsLoop]
      apply ih
      simp [Text.push_line, h]

/-- highlight_text applies highlight_line to exactly the sub-line slices
the source loop carves out of the text. -/
theorem highlight_text_eq_map (t : List Char) (re : Regex) (hs : Style) :
    highlight_text t re hs
      = Text.mk ((srcSegs t).map (fun l => highlight_line l re hs)) := by
  unfold highlight_text srcSegs
  obtain ⟨h1, h2⟩ := textLoop_segsLoop re hs t (nlIdx t) 0 Text.default [] rfl
  apply Text.eq_of_lines
  by_cases hc : t.length > (segsLoop t (nlIdx t) 0 []).2 <;>
    simp [hc, h1, h2, Text.push_line]

/-- highlight_text equals mapping highlight_line over the newline split of
the text with a trailing empty sub-line dropped. -/
theorem highlight_text_split (t : List Char) (re : Regex) (hs : Style) :
    highlight_text t re hs
      = Text.mk ((dropTrailingEmpty (splitNl t)).map (fun l => highlight_line l re hs)) := by
  rw [highlight_text_eq_map, srcSegs_eq_split]

theorem consFirst_length (c : Char) (ls : List (List Char)) (h : ls ≠ []) :
    (consFirst c ls).length = ls.length := by
  rcases ls with _ | ⟨s, ss⟩
  · exact absurd rfl h
  · rfl

theorem splitNl_length (t : List Char) : (splitNl t).length = t.count '\n' + 1 := by
  induction t with
  | nil => rfl
  | cons c u ih =>
      by_cases hc : c = '\n'
      · subst hc; simp [splitNl, List.count_cons, ih]
      · simp [splitNl, hc, consFirst_length c _ (splitNl_ne_nil u), ih, List.count_cons]

theorem getLast?_some_mem (t : List Char) (a : Char) (h : t.getLast? = some a) : a ∈ t := by
  induction t with
  | nil => simp at h
  | cons c u ih =>
      rcases u with _ | ⟨d, v⟩
      · simp [List.getLast?_singleton] at h
        simp [h]
      · rw [List.getLast?_cons_cons] at h
        exact List.mem_cons_of_mem c (ih h)

theorem getLast?_consFirst (c : Char) (s : List Char) (ss : List (List Char)) :
    (consFirst c (s :: ss)).getLast? = some []
      ↔ 2 ≤ (s :: ss).length ∧ (s :: ss).getLast? = some [] := by
  rcases ss with _ | ⟨a, l⟩
  · simp [consFirst, List.getLast?_singleton]
  · rw [show consFirst c (s :: a :: l) = (c :: s) :: a :: l from rfl,
      List.getLast?_cons_cons, List.getLast?_cons_cons]
    simp [Nat.succ_le_succ, Nat.le_add_left]

theorem splitNl_getLast_empty (t : List Char) :
    (splitNl t).getLast? = some [] ↔ t = [] ∨ t.getLast? = some '\n' := by
  induction t with
  | nil => simp [splitNl]
  | cons c u ih =>
      by_cases hc : c = '\n'
      · subst hc
        rw [show splitNl ('\n' :: u) = [] :: splitNl u from rfl]
        rcases hsp : splitNl u with _ | ⟨s, ss⟩
        · exact absurd hsp (splitNl_ne_nil u)
        · rw [List.getLast?_cons_cons, ← hsp, ih]
          rcases u with _ | ⟨d, v⟩
          · simp
          · rw [List.getLast?_cons_cons]
            simp
      · rcases hsp : splitNl u with _ | ⟨s, ss⟩
        · exact absurd hsp (splitNl_ne_nil u)
        · rw [show splitNl (c :: u) = consFirst c (splitNl u) by simp [splitNl, hc], hsp,
            getLast?_consFirst, ← hsp, splitNl_length, ih]
          rcases u with _ | ⟨d, v⟩
          · simp [hc]
          · rw [List.getLast?_cons_cons]
            constructor
            · rintro ⟨-, h | h⟩
              · exact absurd h (by simp)
              · exact Or.inr h
            · rintro (h | h)
              · exact absurd h (by simp)
              · refine ⟨?_, Or.inr h⟩
                have hmem : '\n' ∈ d :: v := getLast?_some_mem (d :: v) '\n' h
                have : ¬ (d :: v).count '\n' = 0 := by
                  rw [List.count_eq_zero]
                  exact fun hno => hno hmem
                omega

/-- Claim C5, amended: highlight_text equals splitting the text at every
newline (keeping empty interior sub-lines) and applying highlight_line to
each sub-line in order, except that the sub-line after the last newline is
dropped when it is empty — a trailing newline or an empty text yields no
final empty line. -/
theorem claim_C5_amended (t : List Char) (re : Regex) (hs : Style) :
    highlight_text t re hs
      = Text.mk ((dropTrailingEmpty (splitNl t)).map (fun l => highlight_line l re hs)) :=
  highlight_text_split t re hs

/-- Claim C5 as stated is false: on the text with a trailing newline the
code drops the final empty sub-line, so the result differs from mapping
highlight_line over the full newline split. -/
theorem claim_C5_counterexample :
    highlight_text ['a', '\n'] (Regex.mk (fun _ => [])) ⟨1⟩
      ≠ Text.mk ((splitNl ['a', '\n']).map
          (fun l => highlight_line l (Regex.mk (fun _ => [])) ⟨1⟩)) := by
  decide

/-- Claim C4, amended: the number of lines highlight_text returns is the
number of newline characters plus one when the text is nonempty and does
not end with a newline, and the number of newline characters otherwise: a
text ending in a newline yields no final empty line, and the empty text
yields zero lines. -/
theorem claim_C4_amended (t : List Char) (re : Regex) (hs : Style) :
    (highlight_text t re hs).lines.length
      = if t = [] ∨ t.getLast? = some '\n' then t.count '\n' else t.count '\n' + 1 := by
  rw [highlight_text_split]
  show (List.map _ (dropTrailingEmpty (splitNl t))).length = _
  rw [List.length_map]
  unfold dropTrailingEmpty
  by_cases h : (splitNl t).getLast? = some []
  · rw [if_pos h, if_pos ((splitNl_getLast_empty t).mp h), List.length_dropLast,
      splitNl_length]
    omega
  · rw [if_neg h, if_neg (fun hr => h ((splitNl_getLast_empty t).mpr hr)), splitNl_length]

/-- Claim C4 as stated is false: a two-character text ending in a newline
has one newline but highlight_text returns one line, not two. -/
theorem claim_C4_counterexample :
    (highlight_text ['a', '\n'] (Regex.mk (fun _ => [])) ⟨1⟩).lines.length
      ≠ ['a', '\n'].count '\n' + 1 := by
  decide

/-- Claim C3, amended: an invalid raw pattern string is a process fault
(the unwrap inside into_regex_ref), not a recoverable InvalidPattern
result — the return types of the entry points have no error channel at
all.  highlight_line always normalizes the pattern and therefore always
faults on an invalid one; highlight_text faults exactly when it processes
at least one sub-line, and on the empty text it returns an empty success
result without ever touching the pattern. -/
theorem claim_C3_amended (line t : List Char) (hs : Style) (ht : t ≠ []) :
    highlight_line_p line (PatternInput.rawStr none) hs = none ∧
      highlight_text_p t (PatternInput.rawStr none) hs = none := by
  refine ⟨rfl, ?_⟩
  unfold highlight_text_p
  rcases hidx : nlIdx t with _ | ⟨i, rest⟩
  · have hlen : t.length > 0 := List.length_pos.mpr ht
    simp [textLoopP, highlight_line_p, into_regex_ref, hlen]
  · simp [textLoopP, highlight_line_p, into_regex_ref]

theorem claim_C3_amended_witness :
    highlight_line_p ['b'] (PatternInput.rawStr none) ⟨2⟩ = none ∧
      highlight_text_p ['b'] (PatternInput.rawStr none) ⟨2⟩ = none :=
  claim_C3_amended ['b'] ['b'] ⟨2⟩ (by decide)

/-- Claim C3 as stated is false: on an invalid raw pattern highlight_line
faults (none) instead of returning an InvalidPattern error value, and on
the empty text highlight_text returns an empty success result. -/
theorem claim_C3_counterexample :
    highlight_line_p ['a'] (PatternInput.rawStr none) ⟨1⟩ = none ∧
      highlight_text_p [] (PatternInput.rawStr none) ⟨1⟩ = some (Text.mk []) :=
  ⟨rfl, rfl⟩

/-- Claim C8: a precompiled matcher and a raw pattern string that compiles
to that same matcher drive highlight_line to identical results, and the
result with the precompiled matcher is the plain segmentation of the line
by that matcher — the entry is deterministic in the compiled pattern, so
compiling once and reusing it agrees with compiling fresh on every call. -/
theorem claim_C8 (line : List Char) (r : Regex) (hs : Style) :
    highlight_line_p line (PatternInput.regex r) hs
        = highlight_line_p line (PatternInput.rawStr (some r)) hs
      ∧ highlight_line_p line (PatternInput.regex r) hs
        = some (highlight_line line r hs) :=
  ⟨rfl, rfl⟩

/-- Claim C10 as stated is false: on the line ab with the single match
(0, 1) the two source variants disagree — the src/highlighter.rs variant
emits an empty highlighted gap fragment and drops the character b. -/
theorem claim_C10_counterexample :
    highlighter_highlight_line ['a', 'b'] [(0, 1)] ⟨1⟩
      ≠ some (highlight_line_ms ['a', 'b'] [(0, 1)] ⟨1⟩) := by
  decide

/-- Claim C10, amended: the two source variants of highlight_line are not
equivalent — the src/highlighter.rs variant styles every fragment
(gaps included) with the highlight style, emits empty gap fragments, and
advances the cursor one character past each match end, dropping a
character.  They agree in the no-match case when the highlight style is
the default style or the line is empty. -/
theorem claim_C10_amended (line : List Char) (hs : Style)
    (h : hs = Style.default ∨ line = []) :
    highlighter_highlight_line line [] hs = some (highlight_line_ms line [] hs) := by
  rcases h with h | h
  · subst h
    rcases line with _ | ⟨c, u⟩
    · rfl
    · unfold highlighter_highlight_line highlight_line_ms
      rw [hlLoop_spec]
      simp [hrLoop, hlSpansCore, finalLo, Line.push_span, Line.default,
        Span.fromContent, Span.withStyle]
  · subst h
    rfl

theorem claim_C10_amended_witness :
    highlighter_highlight_line ['x'] [] Style.default
      = some (highlight_line_ms ['x'] [] Style.default) :=
  claim_C10_amended ['x'] Style.default (Or.inl rfl)

end TPH
